import Mathlib

/-!
Shallow embedding of the trading-strategy module (src/strategy/mod.rs):
the data model (Fraction, TradeContext, Trade), the leaf strategies
(Empty, AlwaysBuy, AlwaysSell, Threshold), the ExponentialMovingAverage
composite, and the Config factory, together with theorems settling the
spec claims about them.

Rust f64 prices are modelled by `F`: exact rationals extended with a NaN
element.  The strategy code only multiplies, adds, subtracts and compares
prices, and every concrete price appearing in the spec is a dyadic
rational that binary64 represents exactly, so the finite fragment is
modelled exactly; NaN propagation in arithmetic and the IEEE rule that
comparisons with NaN are false are modelled explicitly.
-/

/-- Model of a Rust f64 value: either NaN or a finite (exact) rational. -/
inductive F where
  | nan : F
  | fin : ℚ → F
  deriving DecidableEq, Repr

/-- The f64 multiplication of the source, with NaN propagation. -/
def F.mul : F → F → F
  | .fin a, .fin b => .fin (a * b)
  | _, _ => .nan

/-- The f64 addition of the source, with NaN propagation. -/
def F.add : F → F → F
  | .fin a, .fin b => .fin (a + b)
  | _, _ => .nan

/-- The f64 subtraction of the source, with NaN propagation. -/
def F.sub : F → F → F
  | .fin a, .fin b => .fin (a - b)
  | _, _ => .nan

/-- IEEE-754 comparison `a <= b`: false whenever either side is NaN. -/
def F.ble : F → F → Bool
  | .fin a, .fin b => decide (a ≤ b)
  | _, _ => false

/-- IEEE-754 comparison `a >= b`: false whenever either side is NaN. -/
def F.bge : F → F → Bool
  | .fin a, .fin b => decide (b ≤ a)
  | _, _ => false

/-- Modelled from the spec: `uniswap_sdk_core::prelude::Fraction` is external
to src/.  Per spec section 3 a Fraction is a numerator/denominator pair of
unsigned integers, not required to be in lowest terms; per section 4.6 no
runtime validation of numeric ranges (including zero denominators) is
performed. -/
structure Fraction where
  numerator : ℕ
  denominator : ℕ
  deriving DecidableEq, Repr

/-- Modelled from the spec: Fraction construction from a numerator and a
denominator (`Fraction::new`). -/
def Fraction.new (numerator denominator : ℕ) : Fraction :=
  { numerator := numerator, denominator := denominator }

/-- Configuration amount: a plain integer or an explicit pair
(`FractionInput` in src/strategy/mod.rs). -/
inductive FractionInput where
  | int : ℕ → FractionInput
  | fraction : (numerator : ℕ) → (denominator : ℕ) → FractionInput
  deriving DecidableEq, Repr

/-- The `Into<Fraction> for FractionInput` impl of src/strategy/mod.rs. -/
def FractionInput.into : FractionInput → Fraction
  | .int i => Fraction.new i 1
  | .fraction n d => Fraction.new n d

/-- The `TradeContext` struct of src/strategy/mod.rs. -/
structure TradeContext where
  price_lossy : F
  deriving DecidableEq, Repr

/-- The `Trade` enum of src/strategy/mod.rs. -/
inductive Trade where
  | buy : (amount : Fraction) → Trade
  | sell : (amount : Fraction) → Trade
  deriving DecidableEq, Repr

/-- The `ThresholdPoint` struct of src/strategy/mod.rs. -/
structure ThresholdPoint where
  «at» : F
  amount : FractionInput
  deriving DecidableEq, Repr

/-- The built strategies of src/strategy/mod.rs, with their mutable state
(the EMA `last` field) made explicit. -/
inductive Strategy where
  | empty : Strategy
  | alwaysBuy : FractionInput → Strategy
  | alwaysSell : FractionInput → Strategy
  | threshold : (buy : Option ThresholdPoint) → (sell : Option ThresholdPoint) → Strategy
  | ema : (carry : F) → (inner : Strategy) → (last : Option F) → Strategy
  deriving DecidableEq, Repr

/-- Decision rule of `Threshold::trade`: the buy check with its early
return, then the sell check, then None. -/
def Threshold.trade (buy sell : Option ThresholdPoint) (ctx : TradeContext) :
    Option Trade :=
  match buy with
  | some b =>
      if ctx.price_lossy.ble b.at then some (Trade.buy b.amount.into)
      else
        match sell with
        | some s =>
            if ctx.price_lossy.bge s.at then some (Trade.sell s.amount.into) else none
        | none => none
  | none =>
      match sell with
      | some s =>
          if ctx.price_lossy.bge s.at then some (Trade.sell s.amount.into) else none
      | none => none

/-- Smoothed-price computation of `ExponentialMovingAverage::trade`:
`self.last.map(|p| p * self.carry + ctx.price_lossy * (1. - self.carry)).unwrap_or(ctx.price_lossy)`. -/
def emaPrice (carry : F) (last : Option F) (ctx : TradeContext) : F :=
  (last.map fun p => (p.mul carry).add (ctx.price_lossy.mul ((F.fin 1).sub carry))).getD
    ctx.price_lossy

/-- The `Strategy::trade` dispatch: each impl of the trait in
src/strategy/mod.rs, returning the updated strategy state alongside the
optional trade. -/
def Strategy.trade : Strategy → TradeContext → Strategy × Option Trade
  | .empty, _ => (.empty, none)
  | .alwaysBuy a, _ => (.alwaysBuy a, some (Trade.buy a.into))
  | .alwaysSell a, _ => (.alwaysSell a, some (Trade.sell a.into))
  | .threshold buy sell, ctx => (.threshold buy sell, Threshold.trade buy sell ctx)
  | .ema carry inner last, ctx =>
      let price := emaPrice carry last ctx
      let res := inner.trade { price_lossy := price }
      (.ema carry res.1 (some price), res.2)

/-- The `Config` enum of src/strategy/mod.rs. -/
inductive Config where
  | empty : Config
  | alwaysBuy : FractionInput → Config
  | alwaysSell : FractionInput → Config
  | threshold : (buy : Option ThresholdPoint) → (sell : Option ThresholdPoint) → Config
  | ema : (carry : F) → (inner : Config) → Config
  deriving DecidableEq, Repr

/-- The `Config::into_dyn` factory of src/strategy/mod.rs. -/
def Config.into_dyn : Config → Strategy
  | .empty => .empty
  | .alwaysBuy v => .alwaysBuy v
  | .alwaysSell v => .alwaysSell v
  | .threshold b s => .threshold b s
  | .ema carry inner => .ema carry inner.into_dyn none

/-- The driver loop of src/main.rs restricted to the core: one `trade`
call per observed price, threading the mutated strategy state, collecting
the optional trade of every call. -/
def runPrices (s : Strategy) : List F → Strategy × List (Option Trade)
  | [] => (s, [])
  | p :: ps =>
      let r := s.trade { price_lossy := p }
      let rest := runPrices r.1 ps
      (rest.1, r.2 :: rest.2)

/-- The sequence of smoothed prices an ExponentialMovingAverage with the
given `carry` and `last` state feeds its inner strategy across a price
sequence (extracted from `ExponentialMovingAverage::trade`). -/
def emaPrices (carry : F) : Option F → List F → List F
  | _, [] => []
  | last, p :: ps =>
      emaPrice carry last { price_lossy := p }
        :: emaPrices carry (some (emaPrice carry last { price_lossy := p })) ps

/-! Helper lemmas shared by the claim theorems. -/

/-- The driver produces exactly one optional trade per observed price. -/
theorem runPrices_length : ∀ (s : Strategy) (ps : List F),
    (runPrices s ps).2.length = ps.length
  | _, [] => rfl
  | s, p :: ps => congrArg Nat.succ (runPrices_length (s.trade ⟨p⟩).1 ps)

/-- The EMA smoothed-price sequence has the length of the input sequence. -/
theorem emaPrices_length (c : F) : ∀ (last : Option F) (ps : List F),
    (emaPrices c last ps).length = ps.length
  | _, [] => rfl
  | last, p :: ps =>
      congrArg Nat.succ (emaPrices_length c (some (emaPrice c last ⟨p⟩)) ps)

/-- Running an EMA wrapper over a price sequence yields exactly the trades
the inner strategy yields on the smoothed price sequence. -/
theorem runPrices_ema_snd (c : F) :
    ∀ (ps : List F) (inner : Strategy) (last : Option F),
      (runPrices (Strategy.ema c inner last) ps).2
        = (runPrices inner (emaPrices c last ps)).2
  | [], _, _ => rfl
  | p :: ps, inner, last =>
      congrArg (fun l => (inner.trade ⟨emaPrice c last ⟨p⟩⟩).2 :: l)
        (runPrices_ema_snd c ps (inner.trade ⟨emaPrice c last ⟨p⟩⟩).1
          (some (emaPrice c last ⟨p⟩)))

/-- Each smoothed price after the first is built from its predecessor by
the smoothing step of `ExponentialMovingAverage::trade`. -/
theorem emaPrices_getD_succ (c : F) :
    ∀ (ps : List F) (last : Option F) (n : ℕ), n + 1 < ps.length →
      (emaPrices c last ps).getD (n+1) F.nan
        = (((emaPrices c last ps).getD n F.nan).mul c).add
            ((ps.getD (n+1) F.nan).mul ((F.fin 1).sub c))
  | [], _, _, h => by simp at h
  | [_], _, _, h => by simp at h
  | p :: q :: ps, last, 0, _ => by
      simp only [emaPrices, List.getD_cons_succ, List.getD_cons_zero]
      rfl
  | p :: q :: ps, last, n+1, h => by
      have ih := emaPrices_getD_succ c (q :: ps) (some (emaPrice c last ⟨p⟩)) n
        (by simpa using Nat.lt_of_succ_lt_succ h)
      simpa only [emaPrices, List.getD_cons_succ] using ih

/-! Claim theorems. -/

/-- C1: for every EMA strategy with smoothing factor c and every price
sequence, the smoothed prices passed to the inner strategy satisfy
s0 = p0 (cold start passes the raw price through) and
s_n = s_(n-1)*c + p_n*(1-c) for n >= 1, and the inner strategy's results
are returned unchanged. -/
theorem ema_smoothing_recurrence (c : F) (inner : Strategy) (ps : List F) :
    (runPrices (Strategy.ema c inner none) ps).2
        = (runPrices inner (emaPrices c none ps)).2
    ∧ (emaPrices c none ps).length = ps.length
    ∧ (0 < ps.length →
        (emaPrices c none ps).getD 0 F.nan = ps.getD 0 F.nan)
    ∧ (∀ n : ℕ, n + 1 < ps.length →
        (emaPrices c none ps).getD (n+1) F.nan
          = (((emaPrices c none ps).getD n F.nan).mul c).add
              ((ps.getD (n+1) F.nan).mul ((F.fin 1).sub c))) := by
  refine ⟨runPrices_ema_snd c ps inner none, emaPrices_length c none ps, ?_, ?_⟩
  · intro h
    match ps with
    | p :: ps => rfl
  · intro n h
    exact emaPrices_getD_succ c ps none n h

/-- Witness for C1 at carry 1/2, inner Empty, prices 10, 20. -/
theorem ema_smoothing_recurrence_witness :
    (0 < ([F.fin 10, F.fin 20] : List F).length
      ∧ (emaPrices (F.fin (1/2)) none [F.fin 10, F.fin 20]).getD 0 F.nan
          = ([F.fin 10, F.fin 20] : List F).getD 0 F.nan)
    ∧ (0 + 1 < ([F.fin 10, F.fin 20] : List F).length
      ∧ (emaPrices (F.fin (1/2)) none [F.fin 10, F.fin 20]).getD 1 F.nan
          = (((emaPrices (F.fin (1/2)) none [F.fin 10, F.fin 20]).getD 0 F.nan).mul
                (F.fin (1/2))).add
              ((([F.fin 10, F.fin 20] : List F).getD 1 F.nan).mul
                ((F.fin 1).sub (F.fin (1/2))))) :=
  ⟨⟨by norm_num,
    (ema_smoothing_recurrence (F.fin (1/2)) .empty [F.fin 10, F.fin 20]).2.2.1 (by norm_num)⟩,
   ⟨by norm_num,
    (ema_smoothing_recurrence (F.fin (1/2)) .empty [F.fin 10, F.fin 20]).2.2.2 0 (by norm_num)⟩⟩

/-- C2 counterexample: with carry 1/2, inner Empty and prices 10, 20, 30,
all three calls do return None, but the stored smoothed value is
45/2 = 22.5, not 17.5 (= 35/2): the recurrence gives s2 = 15*0.5 + 30*0.5
= 22.5, so the claimed conjunction is false. -/
theorem ema_state_17_5_counterexample :
    ¬ ((runPrices (.ema (F.fin (1/2)) .empty none) [F.fin 10, F.fin 20, F.fin 30]).2
          = [none, none, none]
      ∧ (runPrices (.ema (F.fin (1/2)) .empty none) [F.fin 10, F.fin 20, F.fin 30]).1
          = .ema (F.fin (1/2)) .empty (some (F.fin (35/2)))) := by
  intro h
  have h2 := h.2
  norm_num [runPrices, Strategy.trade, emaPrice, F.mul, F.add, F.sub] at h2

/-- C2 amended: every EMA trade call stores last = Some(smoothed)
unconditionally, whatever the inner strategy returns; for carry 1/2,
inner Empty and prices 10, 20, 30, all three calls return None and the
stored smoothed value after the third call is 45/2 = 22.5
(s0 = 10, s1 = 15, s2 = 22.5). -/
theorem ema_state_update_unconditional :
    (∀ (c : F) (inner : Strategy) (last : Option F) (ctx : TradeContext),
      (Strategy.trade (.ema c inner last) ctx).1
        = .ema c (inner.trade ⟨emaPrice c last ctx⟩).1 (some (emaPrice c last ctx)))
    ∧ (runPrices (.ema (F.fin (1/2)) .empty none) [F.fin 10, F.fin 20, F.fin 30]).2
        = [none, none, none]
    ∧ (runPrices (.ema (F.fin (1/2)) .empty none) [F.fin 10, F.fin 20, F.fin 30]).1
        = .ema (F.fin (1/2)) .empty (some (F.fin (45/2))) := by
  refine ⟨fun c inner last ctx => rfl, ?_, ?_⟩ <;>
    norm_num [runPrices, Strategy.trade, emaPrice, F.mul, F.add, F.sub]

/-- C3: a Threshold with both points, buy at b and sell at s with b < s,
buys at prices <= b, sells at prices >= s, and does nothing strictly
between. -/
theorem threshold_band_decision (b s : ℚ) (ba sa : FractionInput) (p : ℚ)
    (hbs : b < s) :
    (p ≤ b →
      Strategy.trade (.threshold (some ⟨F.fin b, ba⟩) (some ⟨F.fin s, sa⟩)) ⟨F.fin p⟩
        = (.threshold (some ⟨F.fin b, ba⟩) (some ⟨F.fin s, sa⟩), some (Trade.buy ba.into)))
    ∧ (s ≤ p →
      Strategy.trade (.threshold (some ⟨F.fin b, ba⟩) (some ⟨F.fin s, sa⟩)) ⟨F.fin p⟩
        = (.threshold (some ⟨F.fin b, ba⟩) (some ⟨F.fin s, sa⟩), some (Trade.sell sa.into)))
    ∧ (b < p → p < s →
      Strategy.trade (.threshold (some ⟨F.fin b, ba⟩) (some ⟨F.fin s, sa⟩)) ⟨F.fin p⟩
        = (.threshold (some ⟨F.fin b, ba⟩) (some ⟨F.fin s, sa⟩), none)) := by
  refine ⟨fun hb => ?_, fun hs => ?_, fun hb hs => ?_⟩
  · simp [Strategy.trade, Threshold.trade, F.ble, hb]
  · have hnb : ¬ p ≤ b := by linarith
    simp [Strategy.trade, Threshold.trade, F.ble, F.bge, hnb, hs]
  · have hnb : ¬ p ≤ b := by linarith
    have hns : ¬ s ≤ p := by linarith
    simp [Strategy.trade, Threshold.trade, F.ble, F.bge, hnb, hns]

/-- Witness for C3 at b = 0, s = 1, prices 0, 1 and 1/2. -/
theorem threshold_band_decision_witness :
    ((0:ℚ) < 1 ∧ (0:ℚ) ≤ 0
      ∧ Strategy.trade (.threshold (some ⟨F.fin 0, .int 1⟩) (some ⟨F.fin 1, .int 2⟩)) ⟨F.fin 0⟩
          = (.threshold (some ⟨F.fin 0, .int 1⟩) (some ⟨F.fin 1, .int 2⟩),
              some (Trade.buy (FractionInput.into (.int 1)))))
    ∧ ((1:ℚ) ≤ 1
      ∧ Strategy.trade (.threshold (some ⟨F.fin 0, .int 1⟩) (some ⟨F.fin 1, .int 2⟩)) ⟨F.fin 1⟩
          = (.threshold (some ⟨F.fin 0, .int 1⟩) (some ⟨F.fin 1, .int 2⟩),
              some (Trade.sell (FractionInput.into (.int 2)))))
    ∧ ((0:ℚ) < 1/2 ∧ (1:ℚ)/2 < 1
      ∧ Strategy.trade (.threshold (some ⟨F.fin 0, .int 1⟩) (some ⟨F.fin 1, .int 2⟩)) ⟨F.fin (1/2)⟩
          = (.threshold (some ⟨F.fin 0, .int 1⟩) (some ⟨F.fin 1, .int 2⟩), none)) :=
  ⟨⟨by norm_num, le_refl 0,
    (threshold_band_decision 0 1 (.int 1) (.int 2) 0 (by norm_num)).1 (le_refl 0)⟩,
   ⟨le_refl 1,
    (threshold_band_decision 0 1 (.int 1) (.int 2) 1 (by norm_num)).2.1 (le_refl 1)⟩,
   ⟨by norm_num, by norm_num,
    (threshold_band_decision 0 1 (.int 1) (.int 2) (1/2) (by norm_num)).2.2
      (by norm_num) (by norm_num)⟩⟩

/-- C4: with both points present and buy.at >= sell.at, a price meeting
both conditions always yields Buy, never Sell: the buy check strictly
precedes the sell check. -/
theorem threshold_buy_precedes_sell (b s : ℚ) (ba sa : FractionInput) (p : ℚ)
    (hba : s ≤ b) (hbuy : p ≤ b) (hsell : s ≤ p) :
    Strategy.trade (.threshold (some ⟨F.fin b, ba⟩) (some ⟨F.fin s, sa⟩)) ⟨F.fin p⟩
      = (.threshold (some ⟨F.fin b, ba⟩) (some ⟨F.fin s, sa⟩), some (Trade.buy ba.into)) := by
  simp [Strategy.trade, Threshold.trade, F.ble, hbuy]

/-- Witness for C4 at b = s = p = 0. -/
theorem threshold_buy_precedes_sell_witness :
    (0:ℚ) ≤ 0
    ∧ Strategy.trade (.threshold (some ⟨F.fin 0, .int 1⟩) (some ⟨F.fin 0, .int 2⟩)) ⟨F.fin 0⟩
        = (.threshold (some ⟨F.fin 0, .int 1⟩) (some ⟨F.fin 0, .int 2⟩),
            some (Trade.buy (FractionInput.into (.int 1)))) :=
  ⟨le_refl 0,
   threshold_buy_precedes_sell 0 0 (.int 1) (.int 2) 0 (le_refl 0) (le_refl 0) (le_refl 0)⟩

/-- C5: the strategy built from any Config (zero-denominator amounts, NaN
prices and out-of-range carries included) is total: each of the observed
prices yields exactly one optional trade, never an error.  Fraction is
modelled from the spec as an unvalidated numerator/denominator pair, so
no construction can fail. -/
theorem trade_total_on_any_config (cfg : Config) (ps : List F) :
    (runPrices cfg.into_dyn ps).2.length = ps.length :=
  runPrices_length cfg.into_dyn ps

/-- C6: the factory applied to the config Ema(carry 9/10, inner
Threshold(buy at 100 amount 5)) behaves identically to the manually
constructed EMA wrapping that Threshold with last = None, on every price
sequence; the factory builds the nested inner Config recursively before
wrapping it. -/
theorem config_factory_roundtrip (ps : List F) :
    runPrices ((Config.ema (F.fin (9/10))
        (.threshold (some ⟨F.fin 100, .int 5⟩) none)).into_dyn) ps
      = runPrices (.ema (F.fin (9/10))
          (.threshold (some ⟨F.fin 100, .int 5⟩) none) none) ps
    ∧ ∀ (c : F) (inner : Config),
        (Config.ema c inner).into_dyn = .ema c inner.into_dyn none :=
  ⟨rfl, fun _ _ => rfl⟩

/-- With carry 0, smoothing is the identity on finite prices, from any
finite (or absent) last state. -/
theorem emaPrices_carry_zero : ∀ (ps : List ℚ) (l : Option ℚ),
    emaPrices (F.fin 0) (l.map F.fin) (ps.map F.fin) = ps.map F.fin
  | [], _ => rfl
  | p :: ps, l => by
    have hp : emaPrice (F.fin 0) (l.map F.fin) ⟨F.fin p⟩ = F.fin p := by
      cases l with
      | none => rfl
      | some q =>
        show F.fin (q * 0 + p * (1 - 0)) = F.fin p
        norm_num
    have ih := emaPrices_carry_zero ps (some p)
    simp only [Option.map_some'] at ih
    simp only [List.map_cons, emaPrices, hp]
    exact congrArg (F.fin p :: ·) ih

/-- With carry 1 and a finite last state, smoothing freezes at that state
on finite prices. -/
theorem emaPrices_carry_one : ∀ (ps : List ℚ) (q : ℚ),
    emaPrices (F.fin 1) (some (F.fin q)) (ps.map F.fin)
      = List.replicate ps.length (F.fin q)
  | [], _ => rfl
  | p :: ps, q => by
    have hp : emaPrice (F.fin 1) (some (F.fin q)) ⟨F.fin p⟩ = F.fin q := by
      show F.fin (q * 1 + p * (1 - 1)) = F.fin q
      norm_num
    simp only [List.map_cons, emaPrices, hp, List.length_cons, List.replicate_succ]
    exact congrArg (F.fin q :: ·) (emaPrices_carry_one ps q)

/-- C7: for every EMA strategy on finite prices, carry 0 makes the
smoothed price the latest raw price, and carry 1 freezes it at the first
observed price forever; in both cases the trades are those of the inner
strategy on that smoothed sequence. -/
theorem ema_carry_zero_and_one (inner : Strategy) (p0 : ℚ) (ps : List ℚ) :
    (emaPrices (F.fin 0) none ((p0 :: ps).map F.fin) = (p0 :: ps).map F.fin
      ∧ (runPrices (.ema (F.fin 0) inner none) ((p0 :: ps).map F.fin)).2
          = (runPrices inner ((p0 :: ps).map F.fin)).2)
    ∧ (emaPrices (F.fin 1) none ((p0 :: ps).map F.fin)
          = List.replicate (ps.length + 1) (F.fin p0)
      ∧ (runPrices (.ema (F.fin 1) inner none) ((p0 :: ps).map F.fin)).2
          = (runPrices inner (List.replicate (ps.length + 1) (F.fin p0))).2) := by
  have h0 : emaPrices (F.fin 0) none ((p0 :: ps).map F.fin) = (p0 :: ps).map F.fin :=
    emaPrices_carry_zero (p0 :: ps) none
  have h1 : emaPrices (F.fin 1) none ((p0 :: ps).map F.fin)
      = List.replicate (ps.length + 1) (F.fin p0) := by
    have hfirst : emaPrice (F.fin 1) none ⟨F.fin p0⟩ = F.fin p0 := rfl
    simp only [List.map_cons, emaPrices, hfirst, List.replicate_succ]
    exact congrArg (F.fin p0 :: ·) (emaPrices_carry_one ps p0)
  refine ⟨⟨h0, ?_⟩, ⟨h1, ?_⟩⟩
  · rw [runPrices_ema_snd (F.fin 0) ((p0 :: ps).map F.fin) inner none, h0]
  · rw [runPrices_ema_snd (F.fin 1) ((p0 :: ps).map F.fin) inner none, h1]

/-- C8: AlwaysBuy returns Buy with its fixed amount and AlwaysSell
returns Sell with its fixed amount, for every context, the price being
ignored entirely (NaN, zero, negative and huge prices included). -/
theorem always_buy_sell_ignore_price (amount : FractionInput) (ctx : TradeContext) :
    Strategy.trade (.alwaysBuy amount) ctx
        = (.alwaysBuy amount, some (Trade.buy amount.into))
    ∧ Strategy.trade (.alwaysSell amount) ctx
        = (.alwaysSell amount, some (Trade.sell amount.into)) :=
  ⟨rfl, rfl⟩

/-- An IEEE comparison whose left operand is NaN is false. -/
theorem F_ble_nan (x : F) : F.ble F.nan x = false := by cases x <;> rfl

/-- An IEEE comparison whose left operand is NaN is false. -/
theorem F_bge_nan (x : F) : F.bge F.nan x = false := by cases x <;> rfl

/-- C9: a Threshold strategy, with any combination of present or absent
points, returns None on a NaN price: both IEEE comparisons are false. -/
theorem threshold_nan_returns_none (buy sell : Option ThresholdPoint) :
    Strategy.trade (.threshold buy sell) ⟨F.nan⟩ = (.threshold buy sell, none) := by
  cases buy <;> cases sell <;>
    simp [Strategy.trade, Threshold.trade, F_ble_nan, F_bge_nan]

/-- A run of an EMA strategy started with a present last state keeps the
EMA shape, with a present last state, for any number of calls. -/
theorem runPrices_ema_keeps_last (c : F) :
    ∀ (ps : List F) (inner : Strategy) (l : F),
      ∃ inner2 v rs,
        runPrices (Strategy.ema c inner (some l)) ps = (.ema c inner2 (some v), rs)
  | [], inner, l => ⟨inner, l, [], rfl⟩
  | p :: ps, inner, l => by
    obtain ⟨inner2, v, rs, h⟩ := runPrices_ema_keeps_last c ps
      (inner.trade ⟨emaPrice c (some l) ⟨p⟩⟩).1 (emaPrice c (some l) ⟨p⟩)
    refine ⟨inner2, v, (inner.trade ⟨emaPrice c (some l) ⟨p⟩⟩).2 :: rs, ?_⟩
    simp only [runPrices, Strategy.trade]
    rw [h]

/-- C10: every EMA trade call leaves last holding Some value (namely the
just-computed smoothed price), so once last is Some it stays Some across
every subsequent call and the cold-start branch runs at most once. -/
theorem ema_last_never_reverts (c : F) (inner : Strategy) (last : Option F)
    (ctx : TradeContext) (ps : List F) :
    (∃ inner2 r, Strategy.trade (.ema c inner last) ctx
        = (.ema c inner2 (some (emaPrice c last ctx)), r))
    ∧ (∀ l : F, ∃ inner2 v rs,
        runPrices (.ema c inner (some l)) ps = (.ema c inner2 (some v), rs)) :=
  ⟨⟨(inner.trade ⟨emaPrice c last ctx⟩).1, (inner.trade ⟨emaPrice c last ctx⟩).2, rfl⟩,
   fun l => runPrices_ema_keeps_last c ps inner l⟩
